import Mathlib

/-!
Shallow embedding of the InfluxDB line-protocol encoder from
`radicle-dev/outflux` (`src/lib.rs`): the `FieldValue` variant type, the
two escaping functions, the `Measurement` record with its line-protocol
rendering (`ToString for Measurement`), the `MeasurementBuilder` with its
validation, and the batch body construction performed by `Bucket::write`.

Rust `String`s are modelled as `List Char` (UTF-8 code-point sequences;
byte-lexicographic order on UTF-8 strings coincides with code-point order,
so `BTreeMap` iteration order is lexicographic order on these lists).
`SystemTime` is modelled as an `Int`: the signed nanosecond offset from the
Unix epoch; `Duration` values produced by `duration_since(UNIX_EPOCH)` are
modelled as `Nat` nanosecond counts.  Fallible operations return
`Except Error`.
-/

namespace Outflux

/-- The two variants of the source `Error` enum that the encoder core can
produce (`SystemTimeError` from `duration_since`, and
`AtLeastOneMeasurementFieldRequired` from `build`).  The HTTP/URL variants
belong to the out-of-scope transport layer and carry foreign payloads, so
they are not modelled. -/
inductive Error where
  | systemTimeError
  | atLeastOneMeasurementFieldRequired
deriving DecidableEq

/-- The `FieldValue` enum.  `Float(f64)` is modelled by the decimal text
that Rust's `Display` produces for the number (IEEE-754 shortest-roundtrip
formatting is outside this embedding); all the encoder does with the float
is `format!("{}", f)`, i.e. emit exactly that text with no suffix. -/
inductive FieldValue where
  | float (repr : List Char)
  | integer (i : Int)
  | uinteger (u : Nat)
  | string (s : List Char)
  | boolean (b : Bool)
deriving DecidableEq

/-- Rust `str::replace(pat, rep)` for a single-character pattern: every
occurrence of `pat` is replaced by `rep`, left to right. -/
def replaceChar (pat : Char) (rep : List Char) : List Char → List Char
  | [] => []
  | c :: cs => (if c = pat then rep else [c]) ++ replaceChar pat rep cs

/-- `escape_comma_equals_space` from the source: chained `.replace` calls
replacing `,` by `\,`, then `=` by `\=`, then a space by `\ `. -/
def escape_comma_equals_space (tag_key : List Char) : List Char :=
  replaceChar ' ' ['\\', ' ']
    (replaceChar '=' ['\\', '=']
      (replaceChar ',' ['\\', ','] tag_key))

/-- `escape_field_value` from the source: replace `\` by `\\`, then `"`
by `\"`. -/
def escape_field_value (field_value : List Char) : List Char :=
  replaceChar '"' ['\\', '"']
    (replaceChar '\\' ['\\', '\\'] field_value)

/-- The measurement-name escaping performed inline in
`Measurement::to_string`: `self.name.replace(",", "\\,").replace(" ", "\\ ")`
(comma and space only; the equals sign is left alone). -/
def escape_name (name : List Char) : List Char :=
  replaceChar ' ' ['\\', ' '] (replaceChar ',' ['\\', ','] name)

/-- The character a decimal digit renders as (`0`-`9`); values `≥ 10`
never occur in the positions where this is used. -/
def digitChar : Nat → Char
  | 0 => '0'
  | 1 => '1'
  | 2 => '2'
  | 3 => '3'
  | 4 => '4'
  | 5 => '5'
  | 6 => '6'
  | 7 => '7'
  | 8 => '8'
  | 9 => '9'
  | _ => '*'

/-- Structural helper for `natChars`: the first argument is fuel bounding
the recursion depth (the number itself is always enough, since dividing by
ten strictly decreases any value `≥ 10`). -/
def natCharsFuel : Nat → Nat → List Char
  | 0, _ => []
  | fuel + 1, n =>
    if n < 10 then [digitChar n]
    else natCharsFuel fuel (n / 10) ++ [digitChar (n % 10)]

/-- Decimal rendering of a natural number, as Rust's `format!("{}", n)`
prints `u64`/`u128` values: most significant digit first, no leading
zeros, `0` for zero. -/
def natChars (n : Nat) : List Char := natCharsFuel (n + 1) n

/-- Decimal rendering of an integer, as Rust's `format!("{}", i)` prints
`i64` values: an optional leading minus sign followed by the digits. -/
def intChars (i : Int) : List Char :=
  if i < 0 then '-' :: natChars i.natAbs else natChars i.natAbs

/-- `ToString for FieldValue`: float text verbatim, `i`/`u` suffixes for
the integer variants, `t`/`f` for booleans, and the escaped, quoted text
for strings. -/
def FieldValue.to_string : FieldValue → List Char
  | .float r => r
  | .integer i => intChars i ++ ['i']
  | .uinteger u => natChars u ++ ['u']
  | .string s => '"' :: (escape_field_value s ++ ['"'])
  | .boolean true => ['t']
  | .boolean false => ['f']

/-- The `Measurement` struct.  The two `BTreeMap`s are modelled as
association lists carrying the map's iteration order (ascending
lexicographic key order for a genuine `BTreeMap`); `unix_timestamp` is the
`Duration` as a nanosecond count. -/
structure Measurement where
  name : List Char
  fields : List (List Char × FieldValue)
  tags : List (List Char × List Char)
  unix_timestamp : Nat
deriving DecidableEq

/-- Rust `Vec<String>::join(sep)`: empty for no elements, the single
element verbatim, otherwise the elements interleaved with `sep`. -/
def joinSep (sep : List Char) : List (List Char) → List Char
  | [] => []
  | [x] => x
  | x :: y :: xs => x ++ sep ++ joinSep sep (y :: xs)

/-- `ToString for Measurement`: the line-protocol rendering
`format!("{}{} {} {}", escaped_name, tags_str, fields.join(","), nanos)`
where `tags_str` is empty when there are no tags and otherwise a leading
comma followed by the comma-joined `key=value` tag pairs. -/
def Measurement.to_string (m : Measurement) : List Char :=
  let escaped_name := escape_name m.name
  let optional_tags := m.tags.map fun p =>
    escape_comma_equals_space p.1 ++ '=' :: escape_comma_equals_space p.2
  let fields := m.fields.map fun p =>
    escape_comma_equals_space p.1 ++ '=' :: FieldValue.to_string p.2
  let tags_str := if optional_tags = [] then [] else ',' :: joinSep [','] optional_tags
  escaped_name ++ tags_str ++ ' ' :: (joinSep [','] fields ++ ' ' :: natChars m.unix_timestamp)

/-- The `MeasurementBuilder` struct: the required name plus the three
optional components. -/
structure MeasurementBuilder where
  name : List Char
  fields : Option (List (List Char × FieldValue))
  tags : Option (List (List Char × List Char))
  unix_timestamp : Option Nat
deriving DecidableEq

/-- `MeasurementBuilder::new`: everything but the name defaults to
unset. -/
def MeasurementBuilder.new (name : List Char) : MeasurementBuilder :=
  ⟨name, none, none, none⟩

/-- `Measurement::builder`. -/
def Measurement.builder (name : List Char) : MeasurementBuilder :=
  MeasurementBuilder.new name

/-- The builder's `fields` method: replaces the field map (last call
wins). -/
def MeasurementBuilder.setFields (b : MeasurementBuilder)
    (fields : List (List Char × FieldValue)) : MeasurementBuilder :=
  { b with fields := some fields }

/-- The builder's `tags` method: replaces the tag map. -/
def MeasurementBuilder.setTags (b : MeasurementBuilder)
    (tags : List (List Char × List Char)) : MeasurementBuilder :=
  { b with tags := some tags }

/-- `SystemTime::duration_since(UNIX_EPOCH)` for a time modelled as a
signed nanosecond offset `t` from the epoch: an error exactly when `t`
lies strictly before the epoch, otherwise the nonnegative nanosecond
count. -/
def duration_since_epoch (t : Int) : Except Error Nat :=
  if t < 0 then .error .systemTimeError else .ok t.toNat

/-- The builder's `timestamp` method: store
`timestamp.duration_since(UNIX_EPOCH)?` and return the builder. -/
def MeasurementBuilder.timestamp (b : MeasurementBuilder) (t : Int) :
    Except Error MeasurementBuilder :=
  match duration_since_epoch t with
  | .error e => .error e
  | .ok d => .ok { b with unix_timestamp := some d }

/-- `MeasurementBuilder::build`.  `now` models `SystemTime::now()` (as a
signed nanosecond offset from the epoch); it is only consulted when no
timestamp was stored. -/
def MeasurementBuilder.build (b : MeasurementBuilder) (now : Int) :
    Except Error Measurement :=
  match b.fields with
  | none => .error .atLeastOneMeasurementFieldRequired
  | some map =>
    if map = [] then .error .atLeastOneMeasurementFieldRequired
    else
      match b.unix_timestamp with
      | some ts => .ok ⟨b.name, map, b.tags.getD [], ts⟩
      | none =>
        match duration_since_epoch now with
        | .error e => .error e
        | .ok ts => .ok ⟨b.name, map, b.tags.getD [], ts⟩

/-- The body built by `Bucket::write`: render every measurement and join
the lines with a single newline. -/
def bucketWriteBody (measurement : List Measurement) : List Char :=
  joinSep ['\n'] (measurement.map Measurement.to_string)

/-- Concatenation of the images of a per-character substitution, used to
state that the chained `replace` calls amount to a single left-to-right
pass. -/
def mapConcat (f : Char → List Char) : List Char → List Char
  | [] => []
  | c :: cs => f c ++ mapConcat f cs

/-- The per-character substitution the spec prescribes for identifier
positions (tag keys, tag values, field keys): comma, equals sign and
space get a backslash prefix. -/
def escIdChar (c : Char) : List Char :=
  if c = ',' then ['\\', ',']
  else if c = '=' then ['\\', '=']
  else if c = ' ' then ['\\', ' ']
  else [c]

/-- The per-character substitution the spec prescribes for the
measurement-name position: comma and space get a backslash prefix, the
equals sign is left alone. -/
def escNameChar (c : Char) : List Char :=
  if c = ',' then ['\\', ',']
  else if c = ' ' then ['\\', ' ']
  else [c]

/-- The per-character substitution the spec prescribes for string field
values: a backslash doubles, a double quote gets a backslash prefix. -/
def escFVChar (c : Char) : List Char :=
  if c = '\\' then ['\\', '\\']
  else if c = '"' then ['\\', '"']
  else [c]

/-- Strict lexicographic (byte/code-point) order on keys: the order in
which a Rust `BTreeMap<String, _>` iterates its entries. -/
def keyLtB : List Char → List Char → Bool
  | [], [] => false
  | [], _ :: _ => true
  | _ :: _, [] => false
  | a :: as, b :: bs => if a < b then true else if a = b then keyLtB as bs else false

/-- An association list is in strictly ascending key order — the
invariant of a `BTreeMap`'s entry sequence. -/
def keysAscendingB {α : Type} : List (List Char × α) → Bool
  | [] => true
  | [_] => true
  | p :: q :: t => keyLtB p.1 q.1 && keysAscendingB (q :: t)

/-- A field value whose textual content is newline-free (the numeric and
boolean variants always are; Rust never prints a newline for a number). -/
def fieldValueNlFree : FieldValue → Bool
  | .float r => decide ('\n' ∉ r)
  | .string s => decide ('\n' ∉ s)
  | _ => true

/-- A measurement all of whose textual components (name, tag keys and
values, field keys, string/float field contents) are newline-free. -/
def measurementNlFree (m : Measurement) : Bool :=
  decide ('\n' ∉ m.name) &&
  m.tags.all (fun p => decide ('\n' ∉ p.1) && decide ('\n' ∉ p.2)) &&
  m.fields.all (fun p => decide ('\n' ∉ p.1) && fieldValueNlFree p.2)

/-- A measurement whose name contains a raw newline; constructible through
the public builder, since the name is stored verbatim. -/
def newlineMeasurement : Measurement :=
  ⟨['a', '\n', 'b'], [(['f'], .uinteger 1)], [], 0⟩

/-- A small well-behaved measurement (two tags and two fields, keys
ascending, newline-free) used to instantiate the rendering theorems. -/
def witMeasurement : Measurement :=
  ⟨['m', 'y'],
   [(['f', '1'], .string ['v']), (['f', '2'], .boolean true)],
   [(['t', '1'], ['a']), (['t', '2'], ['b'])],
   42⟩

/-- A fully configured builder (fields, tags and timestamp all set) used
to instantiate the builder theorems. -/
def witBuilder : MeasurementBuilder :=
  ⟨['m'], some [(['f'], .uinteger 1)], some [(['t'], ['v'])], some 5⟩

/-! ### Helper lemmas about the escaping primitives -/

theorem replaceChar_append (p : Char) (r a b : List Char) :
    replaceChar p r (a ++ b) = replaceChar p r a ++ replaceChar p r b := by
  induction a with
  | nil => rfl
  | cons c cs ih => simp [replaceChar, ih, List.append_assoc]

theorem mem_replaceChar {p : Char} {r s : List Char} {c : Char}
    (h : c ∈ replaceChar p r s) : c ∈ r ∨ c ∈ s := by
  induction s with
  | nil => simp [replaceChar] at h
  | cons x xs ih =>
    simp only [replaceChar, List.mem_append] at h
    rcases h with h | h
    · split at h
      · exact .inl h
      · simp only [List.mem_singleton] at h
        exact .inr (h ▸ List.mem_cons_self x xs)
    · rcases ih h with h | h
      · exact .inl h
      · exact .inr (List.mem_cons_of_mem _ h)

theorem replaceChar_eq_self {p : Char} {r s : List Char} (h : p ∉ s) :
    replaceChar p r s = s := by
  induction s with
  | nil => rfl
  | cons x xs ih =>
    simp only [List.mem_cons, not_or] at h
    simp [replaceChar, Ne.symm h.1, ih h.2]

theorem replaceChar_eq_mapConcat (p : Char) (r s : List Char) :
    replaceChar p r s = mapConcat (fun c => if c = p then r else [c]) s := by
  induction s with
  | nil => rfl
  | cons x xs ih => simp [replaceChar, mapConcat, ih]

theorem replaceChar_mapConcat (p : Char) (r : List Char) (f : Char → List Char)
    (s : List Char) :
    replaceChar p r (mapConcat f s) =
      mapConcat (fun c => replaceChar p r (f c)) s := by
  induction s with
  | nil => rfl
  | cons x xs ih => simp [mapConcat, replaceChar_append, ih]

theorem mapConcat_congr {f g : Char → List Char} (h : ∀ c, f c = g c) :
    ∀ s, mapConcat f s = mapConcat g s := by
  intro s
  induction s with
  | nil => rfl
  | cons x xs ih => simp [mapConcat, h x, ih]

theorem mem_mapConcat {f : Char → List Char} {s : List Char} {c : Char}
    (h : c ∈ mapConcat f s) : ∃ x ∈ s, c ∈ f x := by
  induction s with
  | nil => simp [mapConcat] at h
  | cons x xs ih =>
    simp only [mapConcat, List.mem_append] at h
    rcases h with h | h
    · exact ⟨x, List.mem_cons_self x xs, h⟩
    · obtain ⟨y, hy, hc⟩ := ih h
      exact ⟨y, List.mem_cons_of_mem _ hy, hc⟩

theorem escape_comma_equals_space_charwise (s : List Char) :
    escape_comma_equals_space s = mapConcat escIdChar s := by
  unfold escape_comma_equals_space
  rw [replaceChar_eq_mapConcat ',', replaceChar_mapConcat, replaceChar_mapConcat]
  refine mapConcat_congr (fun c => ?_) s
  by_cases h1 : c = ','
  · subst h1; decide
  · by_cases h2 : c = '='
    · subst h2; decide
    · by_cases h3 : c = ' '
      · subst h3; decide
      · simp [escIdChar, replaceChar, h1, h2, h3]

theorem escape_name_charwise (s : List Char) :
    escape_name s = mapConcat escNameChar s := by
  unfold escape_name
  rw [replaceChar_eq_mapConcat ',', replaceChar_mapConcat]
  refine mapConcat_congr (fun c => ?_) s
  by_cases h1 : c = ','
  · subst h1; decide
  · by_cases h3 : c = ' '
    · subst h3; decide
    · simp [escNameChar, replaceChar, h1, h3]

theorem escape_field_value_charwise (s : List Char) :
    escape_field_value s = mapConcat escFVChar s := by
  unfold escape_field_value
  rw [replaceChar_eq_mapConcat '\\', replaceChar_mapConcat]
  refine mapConcat_congr (fun c => ?_) s
  by_cases h1 : c = '\\'
  · subst h1; decide
  · by_cases h2 : c = '"'
    · subst h2; decide
    · simp [escFVChar, replaceChar, h1, h2]

theorem escape_field_value_append (a b : List Char) :
    escape_field_value (a ++ b) = escape_field_value a ++ escape_field_value b := by
  unfold escape_field_value
  rw [replaceChar_append, replaceChar_append]

/-! ### Helper lemmas about decimal rendering -/

theorem digitChar_ne_newline (k : Nat) : digitChar k ≠ '\n' := by
  unfold digitChar
  split <;> decide

theorem digitChar_digit {k : Nat} (h : k < 10) :
    '0' ≤ digitChar k ∧ digitChar k ≤ '9' := by
  interval_cases k <;> decide

theorem mem_natCharsFuel {fuel n : Nat} {c : Char}
    (h : c ∈ natCharsFuel fuel n) : ∃ k, k < 10 ∧ c = digitChar k := by
  induction fuel generalizing n with
  | zero => simp [natCharsFuel] at h
  | succ fuel ih =>
    rw [natCharsFuel] at h
    split at h
    · next hn =>
      simp only [List.mem_singleton] at h
      exact ⟨n, hn, h⟩
    · rcases List.mem_append.mp h with h | h
      · exact ih h
      · simp only [List.mem_singleton] at h
        exact ⟨n % 10, Nat.mod_lt _ (by omega), h⟩

theorem mem_natChars {n : Nat} {c : Char} (h : c ∈ natChars n) :
    ∃ k, k < 10 ∧ c = digitChar k :=
  mem_natCharsFuel h

theorem newline_not_mem_natChars (n : Nat) : '\n' ∉ natChars n := by
  intro h
  obtain ⟨k, _, hk⟩ := mem_natChars h
  exact digitChar_ne_newline k hk.symm

theorem natChars_concat (n : Nat) :
    ∃ l k, k < 10 ∧ natChars n = l ++ [digitChar k] := by
  unfold natChars
  rw [natCharsFuel]
  by_cases hn : n < 10
  · exact ⟨[], n, hn, by rw [if_pos hn]; rfl⟩
  · exact ⟨natCharsFuel n (n / 10), n % 10, Nat.mod_lt _ (by omega), by rw [if_neg hn]⟩

theorem newline_not_mem_intChars (i : Int) : '\n' ∉ intChars i := by
  unfold intChars
  split
  · intro h
    rcases List.mem_cons.mp h with h | h
    · exact absurd h (by decide)
    · exact newline_not_mem_natChars _ h
  · exact newline_not_mem_natChars _

/-! ### Helper lemmas about `joinSep` -/

theorem mem_joinSep {sep : List Char} {ls : List (List Char)} {c : Char}
    (h : c ∈ joinSep sep ls) : c ∈ sep ∨ ∃ l ∈ ls, c ∈ l := by
  induction ls with
  | nil => simp [joinSep] at h
  | cons x xs ih =>
    cases xs with
    | nil => exact .inr ⟨x, List.mem_cons_self x [], h⟩
    | cons y ys =>
      simp only [joinSep, List.mem_append] at h
      rcases h with (h | h) | h
      · exact .inr ⟨x, List.mem_cons_self _ _, h⟩
      · exact .inl h
      · rcases ih h with h | ⟨l, hl, hc⟩
        · exact .inl h
        · exact .inr ⟨l, List.mem_cons_of_mem _ hl, hc⟩

theorem count_joinSep_newline (ls : List (List Char)) (h : ∀ l ∈ ls, '\n' ∉ l) :
    (joinSep ['\n'] ls).count '\n' = ls.length - 1 := by
  induction ls with
  | nil => rfl
  | cons x xs ih =>
    cases xs with
    | nil =>
      simp only [joinSep, List.length_singleton]
      exact List.count_eq_zero.mpr (h x (List.mem_cons_self _ _))
    | cons y ys =>
      have hx : (x.count '\n') = 0 :=
        List.count_eq_zero.mpr (h x (List.mem_cons_self _ _))
      have hrest := ih (fun l hl => h l (List.mem_cons_of_mem _ hl))
      simp only [joinSep] at hrest ⊢
      rw [List.count_append, List.count_append, hx]
      simp only [List.length_cons] at hrest ⊢
      rw [hrest]
      simp
      omega

theorem joinSep_append_single (sep x : List Char) :
    ∀ ls : List (List Char), ls ≠ [] →
      joinSep sep (ls ++ [x]) = joinSep sep ls ++ (sep ++ x)
  | [], h => absurd rfl h
  | [a], _ => by simp [joinSep, List.append_assoc]
  | a :: b :: t, _ => by
    have ih := joinSep_append_single sep x (b :: t) (by simp)
    simp only [List.cons_append, joinSep, List.append_eq]
    rw [List.cons_append] at ih
    rw [ih]
    simp [List.append_assoc]

theorem getLast?_append_singleton (a : Char) :
    ∀ l : List Char, (l ++ [a]).getLast? = some a
  | [] => rfl
  | [x] => rfl
  | x :: y :: ys => by
    have ih := getLast?_append_singleton a (y :: ys)
    simp only [List.cons_append] at ih ⊢
    rw [List.getLast?_cons_cons]
    exact ih

theorem head?_joinSep {sep : List Char} {ls : List (List Char)} {c : Char}
    (hne : ∀ l ∈ ls, l ≠ []) (h : (joinSep sep ls).head? = some c) :
    ∃ l ∈ ls, c ∈ l := by
  cases ls with
  | nil => simp [joinSep] at h
  | cons x xs =>
    have hx := hne x (List.mem_cons_self _ _)
    cases hxe : x with
    | nil => exact absurd hxe hx
    | cons a t =>
      subst hxe
      refine ⟨a :: t, List.mem_cons_self _ _, ?_⟩
      cases xs with
      | nil =>
        simp only [joinSep, List.head?_cons, Option.some.injEq] at h
        rw [← h]
        exact List.mem_cons_self _ _
      | cons y ys =>
        simp only [joinSep, List.cons_append, List.head?_cons,
          Option.some.injEq] at h
        rw [← h]
        exact List.mem_cons_self _ _

/-! ### Newline preservation through the renderer -/

theorem mem_escIdChar {x c : Char} (h : c ∈ escIdChar x) : c = '\\' ∨ c = x := by
  unfold escIdChar at h
  split at h
  · next hx =>
    subst hx
    simpa using h
  · split at h
    · next hx =>
      subst hx
      simpa using h
    · split at h
      · next hx =>
        subst hx
        simpa using h
      · simp only [List.mem_singleton] at h
        exact .inr h

theorem mem_escNameChar {x c : Char} (h : c ∈ escNameChar x) : c = '\\' ∨ c = x := by
  unfold escNameChar at h
  split at h
  · next hx =>
    subst hx
    simpa using h
  · split at h
    · next hx =>
      subst hx
      simpa using h
    · simp only [List.mem_singleton] at h
      exact .inr h

theorem mem_escFVChar {x c : Char} (h : c ∈ escFVChar x) : c = '\\' ∨ c = x := by
  unfold escFVChar at h
  split at h
  · next hx =>
    subst hx
    simpa using h
  · split at h
    · next hx =>
      subst hx
      simpa using h
    · simp only [List.mem_singleton] at h
      exact .inr h

theorem newline_not_mem_escape_id {s : List Char} (h : '\n' ∉ s) :
    '\n' ∉ escape_comma_equals_space s := by
  rw [escape_comma_equals_space_charwise]
  intro hm
  obtain ⟨x, hx, hc⟩ := mem_mapConcat hm
  rcases mem_escIdChar hc with hc | hc
  · exact absurd hc (by decide)
  · exact h (hc ▸ hx)

theorem newline_not_mem_escape_name {s : List Char} (h : '\n' ∉ s) :
    '\n' ∉ escape_name s := by
  rw [escape_name_charwise]
  intro hm
  obtain ⟨x, hx, hc⟩ := mem_mapConcat hm
  rcases mem_escNameChar hc with hc | hc
  · exact absurd hc (by decide)
  · exact h (hc ▸ hx)

theorem newline_not_mem_escape_fv {s : List Char} (h : '\n' ∉ s) :
    '\n' ∉ escape_field_value s := by
  rw [escape_field_value_charwise]
  intro hm
  obtain ⟨x, hx, hc⟩ := mem_mapConcat hm
  rcases mem_escFVChar hc with hc | hc
  · exact absurd hc (by decide)
  · exact h (hc ▸ hx)

theorem newline_not_mem_fieldValue {v : FieldValue} (h : fieldValueNlFree v = true) :
    '\n' ∉ FieldValue.to_string v := by
  cases v with
  | float r =>
    simp only [fieldValueNlFree, decide_eq_true_eq] at h
    simpa [FieldValue.to_string] using h
  | integer i =>
    intro hm
    simp only [FieldValue.to_string, List.mem_append, List.mem_singleton] at hm
    rcases hm with hm | hm
    · exact newline_not_mem_intChars i hm
    · exact absurd hm (by decide)
  | uinteger u =>
    intro hm
    simp only [FieldValue.to_string, List.mem_append, List.mem_singleton] at hm
    rcases hm with hm | hm
    · exact newline_not_mem_natChars u hm
    · exact absurd hm (by decide)
  | string s =>
    simp only [fieldValueNlFree, decide_eq_true_eq] at h
    intro hm
    simp only [FieldValue.to_string, List.mem_cons, List.mem_append,
      List.mem_singleton] at hm
    rcases hm with hm | hm | hm
    · exact absurd hm (by decide)
    · exact newline_not_mem_escape_fv h hm
    · exact absurd hm (by decide)
  | boolean b =>
    cases b <;> intro hm <;> exact absurd hm (by decide)

theorem measurement_line_no_newline {m : Measurement}
    (h : measurementNlFree m = true) : '\n' ∉ m.to_string := by
  simp only [measurementNlFree, Bool.and_eq_true, List.all_eq_true,
    decide_eq_true_eq] at h
  obtain ⟨⟨hname, htags⟩, hfields⟩ := h
  have htag1 : ∀ l ∈ m.tags.map (fun p =>
      escape_comma_equals_space p.1 ++ '=' :: escape_comma_equals_space p.2),
      '\n' ∉ l := by
    intro l hl
    obtain ⟨p, hp, rfl⟩ := List.mem_map.mp hl
    have hkv := htags p hp
    simp only [Bool.and_eq_true, decide_eq_true_eq] at hkv
    intro hc
    rcases List.mem_append.mp hc with hc | hc
    · exact newline_not_mem_escape_id hkv.1 hc
    · rcases List.mem_cons.mp hc with hc | hc
      · exact absurd hc (by decide)
      · exact newline_not_mem_escape_id hkv.2 hc
  have hfield1 : ∀ l ∈ m.fields.map (fun p =>
      escape_comma_equals_space p.1 ++ '=' :: FieldValue.to_string p.2),
      '\n' ∉ l := by
    intro l hl
    obtain ⟨p, hp, rfl⟩ := List.mem_map.mp hl
    have hkv := hfields p hp
    simp only [Bool.and_eq_true, decide_eq_true_eq] at hkv
    intro hc
    rcases List.mem_append.mp hc with hc | hc
    · exact newline_not_mem_escape_id hkv.1 hc
    · rcases List.mem_cons.mp hc with hc | hc
      · exact absurd hc (by decide)
      · exact newline_not_mem_fieldValue hkv.2 hc
  intro hm
  simp only [Measurement.to_string] at hm
  rcases List.mem_append.mp hm with hm | hm
  · rcases List.mem_append.mp hm with hm | hm
    · exact newline_not_mem_escape_name hname hm
    · split at hm
      · simp at hm
      · rcases List.mem_cons.mp hm with hm | hm
        · exact absurd hm (by decide)
        · rcases mem_joinSep hm with hm | ⟨l, hl, hc⟩
          · exact absurd hm (by decide)
          · exact htag1 l hl hc
  · rcases List.mem_cons.mp hm with hm | hm
    · exact absurd hm (by decide)
    · rcases List.mem_append.mp hm with hm | hm
      · rcases mem_joinSep hm with hm | ⟨l, hl, hc⟩
        · exact absurd hm (by decide)
        · exact hfield1 l hl hc
      · rcases List.mem_cons.mp hm with hm | hm
        · exact absurd hm (by decide)
        · exact newline_not_mem_natChars _ hm

/-! ### Shape of a rendered line -/

theorem exists_concat_digit (a b c : List Char) (n : Nat) :
    ∃ w k, k < 10 ∧ a ++ b ++ ' ' :: (c ++ ' ' :: natChars n) = w ++ [digitChar k] := by
  obtain ⟨l, k, hk, hl⟩ := natChars_concat n
  refine ⟨a ++ b ++ ' ' :: (c ++ ' ' :: l), k, hk, ?_⟩
  rw [hl]
  simp [List.append_assoc]

theorem to_string_ends_digit (m : Measurement) :
    ∃ w k, k < 10 ∧ m.to_string = w ++ [digitChar k] := by
  simp only [Measurement.to_string]
  exact exists_concat_digit _ _ _ _

theorem to_string_ne_nil (m : Measurement) : m.to_string ≠ [] := by
  obtain ⟨w, k, _, hw⟩ := to_string_ends_digit m
  simp [hw]

/-! ### Claim theorems -/

/-- Claim C3: identifier escaping — used for tag keys, tag values and
field keys — acts as a single left-to-right pass replacing each comma,
equals sign and space with that character prefixed by a backslash, while
the measurement-name escaping replaces only comma and space and leaves the
equals sign unescaped, for every input string. -/
theorem escaping_charwise_spec (s : List Char) :
    escape_comma_equals_space s = mapConcat escIdChar s ∧
    escape_name s = mapConcat escNameChar s ∧
    escape_name ['='] = ['='] :=
  ⟨escape_comma_equals_space_charwise s, escape_name_charwise s, by decide⟩

/-- Claim C4: string field-value escaping doubles each backslash before
prefixing each double quote, so an input backslash-quote pair renders as
backslash-backslash-backslash-quote, and the rendered `String` field value
wraps the escaped text in double quotes. -/
theorem escape_field_value_order_spec (s₁ s₂ : List Char) :
    escape_field_value (s₁ ++ '\\' :: '"' :: s₂) =
      escape_field_value s₁ ++ '\\' :: '\\' :: '\\' :: '"' :: escape_field_value s₂ ∧
    FieldValue.to_string (.string (s₁ ++ '\\' :: '"' :: s₂)) =
      '"' :: ((escape_field_value s₁ ++
        '\\' :: '\\' :: '\\' :: '"' :: escape_field_value s₂) ++ ['"']) := by
  have hmid : escape_field_value ['\\', '"'] = ['\\', '\\', '\\', '"'] := by decide
  have h : escape_field_value (s₁ ++ '\\' :: '"' :: s₂) =
      escape_field_value s₁ ++ '\\' :: '\\' :: '\\' :: '"' :: escape_field_value s₂ := by
    have hsplit : ('\\' :: '"' :: s₂ : List Char) = ['\\', '"'] ++ s₂ := rfl
    rw [escape_field_value_append, hsplit, escape_field_value_append, hmid]
    simp [List.cons_append]
  refine ⟨h, ?_⟩
  simp only [FieldValue.to_string, h]

/-- Claim C7: `FieldValue` rendering is total over the five variants:
the float text verbatim with no suffix, decimal digits with an `i` suffix
for `Integer`, decimal digits with a `u` suffix for `UInteger`, `t`/`f`
for `Boolean`, and the escaped text wrapped in double quotes for `String`;
moreover every character of the unsigned decimal rendering is a decimal
digit. -/
theorem fieldValue_render_spec (r : List Char) (i : Int) (u : Nat) (s : List Char) :
    FieldValue.to_string (.float r) = r ∧
    FieldValue.to_string (.integer i) = intChars i ++ ['i'] ∧
    FieldValue.to_string (.uinteger u) = natChars u ++ ['u'] ∧
    FieldValue.to_string (.boolean true) = ['t'] ∧
    FieldValue.to_string (.boolean false) = ['f'] ∧
    FieldValue.to_string (.string s) = '"' :: (escape_field_value s ++ ['"']) ∧
    (∀ c ∈ natChars u, '0' ≤ c ∧ c ≤ '9') := by
  refine ⟨rfl, rfl, rfl, rfl, rfl, rfl, fun c hc => ?_⟩
  obtain ⟨k, hk, rfl⟩ := mem_natChars hc
  exact digitChar_digit hk

/-- Witness for claim C7 at concrete inputs: the character of
`natChars 7` really lies in the digit range. -/
theorem fieldValue_render_spec_witness : ('0' : Char) ≤ '7' ∧ ('7' : Char) ≤ '9' :=
  (fieldValue_render_spec [] 0 7 []).2.2.2.2.2.2 '7' (by decide)

/-- Claim C9: both escaping functions return inputs without their ASCII
trigger characters unchanged; in particular any text made of non-ASCII
characters (code points `≥ 128`, e.g. emoji) passes through both functions
unmodified. -/
theorem escape_noop_spec (s : List Char) :
    ((∀ c ∈ s, c ≠ ',' ∧ c ≠ '=' ∧ c ≠ ' ') → escape_comma_equals_space s = s) ∧
    ((∀ c ∈ s, c ≠ '\\' ∧ c ≠ '"') → escape_field_value s = s) ∧
    ((∀ c ∈ s, 128 ≤ c.toNat) →
      escape_comma_equals_space s = s ∧ escape_field_value s = s) := by
  have hid : (∀ c ∈ s, c ≠ ',' ∧ c ≠ '=' ∧ c ≠ ' ') →
      escape_comma_equals_space s = s := by
    intro h
    have hc : ',' ∉ s := fun hm => ((h _ hm).1 rfl)
    have he : '=' ∉ s := fun hm => ((h _ hm).2.1 rfl)
    have hs : ' ' ∉ s := fun hm => ((h _ hm).2.2 rfl)
    unfold escape_comma_equals_space
    rw [replaceChar_eq_self hc, replaceChar_eq_self he, replaceChar_eq_self hs]
  have hfv : (∀ c ∈ s, c ≠ '\\' ∧ c ≠ '"') → escape_field_value s = s := by
    intro h
    have hb : '\\' ∉ s := fun hm => ((h _ hm).1 rfl)
    have hq : '"' ∉ s := fun hm => ((h _ hm).2 rfl)
    unfold escape_field_value
    rw [replaceChar_eq_self hb, replaceChar_eq_self hq]
  refine ⟨hid, hfv, fun h => ⟨hid fun c hm => ?_, hfv fun c hm => ?_⟩⟩
  · have hge := h c hm
    refine ⟨?_, ?_, ?_⟩ <;> intro hE <;> subst hE <;> revert hge <;> decide
  · have hge := h c hm
    refine ⟨?_, ?_⟩ <;> intro hE <;> subst hE <;> revert hge <;> decide

/-- Witness for claim C9: an emoji passes through both escapers
unchanged. -/
theorem escape_noop_spec_witness :
    escape_comma_equals_space ['🍭'] = ['🍭'] ∧ escape_field_value ['🍭'] = ['🍭'] :=
  (escape_noop_spec ['🍭']).2.2 (by decide)

/-- Claim C1: for a measurement whose tag and field maps are in strictly
ascending key order (the `BTreeMap` iteration invariant), rendering
produces the escaped name, then — only when tags exist — a comma followed
by the comma-joined escaped `key=value` tag pairs in that ascending order,
then one space, the comma-joined `key=value` field pairs in ascending
order, one space, and the decimal nanosecond timestamp with no suffix;
with no tags the tag section and its leading comma are absent. -/
theorem to_string_format_spec (m : Measurement)
    (_htags : keysAscendingB m.tags = true)
    (_hfields : keysAscendingB m.fields = true) :
    m.to_string =
      escape_name m.name
      ++ (if m.tags = [] then []
          else ',' :: joinSep [','] (m.tags.map fun p =>
            escape_comma_equals_space p.1 ++ '=' :: escape_comma_equals_space p.2))
      ++ ' ' :: (joinSep [','] (m.fields.map fun p =>
            escape_comma_equals_space p.1 ++ '=' :: FieldValue.to_string p.2)
          ++ ' ' :: natChars m.unix_timestamp) := by
  by_cases ht : m.tags = []
  · simp [Measurement.to_string, ht]
  · simp [Measurement.to_string, ht]

/-- Witness for claim C1: the format equality at a concrete measurement
with two ascending tags and two ascending fields. -/
theorem to_string_format_spec_witness :
    witMeasurement.to_string =
      escape_name witMeasurement.name
      ++ (if witMeasurement.tags = [] then []
          else ',' :: joinSep [','] (witMeasurement.tags.map fun p =>
            escape_comma_equals_space p.1 ++ '=' :: escape_comma_equals_space p.2))
      ++ ' ' :: (joinSep [','] (witMeasurement.fields.map fun p =>
            escape_comma_equals_space p.1 ++ '=' :: FieldValue.to_string p.2)
          ++ ' ' :: natChars witMeasurement.unix_timestamp) :=
  to_string_format_spec witMeasurement (by decide) (by decide)

/-- Claim C2: `build` fails with the missing-fields error exactly when the
field map was never set or was set empty, and on success the measurement
carries the supplied field map. -/
theorem build_missing_fields_spec (b : MeasurementBuilder) (now : Int) :
    (b.build now = .error .atLeastOneMeasurementFieldRequired ↔
      b.fields = none ∨ b.fields = some []) ∧
    (∀ fs m, b.fields = some fs → b.build now = .ok m → m.fields = fs) := by
  constructor
  · constructor
    · intro h
      cases hf : b.fields with
      | none => exact .inl rfl
      | some map =>
        by_cases hm : map = []
        · exact .inr (by rw [hm])
        · exfalso
          simp only [MeasurementBuilder.build, hf, hm, if_false] at h
          cases hts : b.unix_timestamp with
          | some ts =>
            rw [hts] at h
            simp at h
          | none =>
            rw [hts] at h
            unfold duration_since_epoch at h
            by_cases hn : now < 0
            · rw [if_pos hn] at h
              simp at h
            · rw [if_neg hn] at h
              simp at h
    · intro h
      rcases h with h | h <;> simp [MeasurementBuilder.build, h]
  · intro fs m hf hok
    by_cases hm : fs = []
    · simp [MeasurementBuilder.build, hf, hm] at hok
    · simp only [MeasurementBuilder.build, hf, hm, if_false] at hok
      cases hts : b.unix_timestamp with
      | some ts =>
        rw [hts] at hok
        simp only [Except.ok.injEq] at hok
        rw [← hok]
      | none =>
        rw [hts] at hok
        unfold duration_since_epoch at hok
        by_cases hn : now < 0
        · rw [if_pos hn] at hok
          simp at hok
        · rw [if_neg hn] at hok
          simp only [Except.ok.injEq] at hok
          rw [← hok]

/-- Witness for claim C2: a builder with a non-empty field map builds a
measurement carrying exactly that map. -/
theorem build_missing_fields_spec_witness :
    (Measurement.mk ['m'] [(['f'], FieldValue.uinteger 1)] [(['t'], ['v'])] 5).fields
      = [(['f'], FieldValue.uinteger 1)] :=
  (build_missing_fields_spec witBuilder 0).2 [(['f'], FieldValue.uinteger 1)]
    (Measurement.mk ['m'] [(['f'], FieldValue.uinteger 1)] [(['t'], ['v'])] 5) rfl rfl

/-- Claim C8: `timestamp` fails (with the clock error) exactly when the
supplied instant precedes the Unix epoch, and otherwise stores the
instant's nanoseconds-since-epoch in the builder and returns it. -/
theorem timestamp_epoch_spec (b : MeasurementBuilder) (t : Int) :
    ((∃ e, b.timestamp t = .error e) ↔ t < 0) ∧
    (0 ≤ t → b.timestamp t = .ok { b with unix_timestamp := some t.toNat }) := by
  have hok : 0 ≤ t → b.timestamp t = .ok { b with unix_timestamp := some t.toNat } := by
    intro h
    simp [MeasurementBuilder.timestamp, duration_since_epoch,
      show ¬ t < 0 from not_lt.mpr h]
  constructor
  · constructor
    · rintro ⟨e, he⟩
      by_contra hge
      push_neg at hge
      rw [hok hge] at he
      simp at he
    · intro h
      exact ⟨.systemTimeError,
        by simp [MeasurementBuilder.timestamp, duration_since_epoch, h]⟩
  · exact hok

/-- Witness for claim C8: a post-epoch instant is stored as its
nanosecond count. -/
theorem timestamp_epoch_spec_witness :
    witBuilder.timestamp 5 = .ok { witBuilder with unix_timestamp := some (Int.toNat 5) } :=
  (timestamp_epoch_spec witBuilder 5).2 (by decide)

/-- Claim C10: once the timestamp has been explicitly (and successfully)
set and the field map is set and non-empty, `build` always succeeds with
the configured components, and its result does not depend on the current
clock reading. -/
theorem build_explicit_timestamp_spec (b : MeasurementBuilder) (now now' : Int)
    (fs : List (List Char × FieldValue)) (ts : Nat)
    (hf : b.fields = some fs) (hne : fs ≠ []) (hts : b.unix_timestamp = some ts) :
    b.build now = .ok ⟨b.name, fs, b.tags.getD [], ts⟩ ∧ b.build now = b.build now' := by
  have h : ∀ x : Int, b.build x = .ok ⟨b.name, fs, b.tags.getD [], ts⟩ := by
    intro x
    simp [MeasurementBuilder.build, hf, hne, hts]
  exact ⟨h now, (h now).trans (h now').symm⟩

/-- Witness for claim C10: the fully configured builder builds the same
measurement whatever the clock says, even a pre-epoch clock. -/
theorem build_explicit_timestamp_spec_witness :
    witBuilder.build 0 =
      .ok ⟨witBuilder.name, [(['f'], FieldValue.uinteger 1)], (witBuilder.tags).getD [], 5⟩ ∧
    witBuilder.build 0 = witBuilder.build (-7) :=
  build_explicit_timestamp_spec witBuilder 0 (-7) [(['f'], FieldValue.uinteger 1)] 5
    rfl (by decide) rfl

/-- Claim C6 counterexample: a measurement whose name embeds a raw newline
(constructible through the public builder, which stores the name verbatim)
renders to text containing that newline, so rendering does not produce a
single line for every measurement whatever its characters. -/
theorem render_newline_counterexample : '\n' ∈ newlineMeasurement.to_string := by
  decide

/-- Claim C6 (amended): for every measurement whose textual components —
name, tag keys and values, field keys, and string/float field contents —
contain no newline, the rendered output contains no newline character,
i.e. it is a single line. -/
theorem render_single_line_spec (m : Measurement)
    (h : measurementNlFree m = true) : '\n' ∉ m.to_string :=
  measurement_line_no_newline h

/-- Witness for claim C6 at a concrete newline-free measurement. -/
theorem render_single_line_spec_witness : '\n' ∉ witMeasurement.to_string :=
  render_single_line_spec witMeasurement (by decide)

/-- Claim C5 counterexample: a single measurement embedding a newline in
its name yields a one-element batch whose payload contains one newline,
not `N - 1 = 0` of them. -/
theorem batch_newline_count_counterexample :
    (bucketWriteBody [newlineMeasurement]).count '\n' ≠
      [newlineMeasurement].length - 1 := by
  decide

/-- Claim C5 (amended): the batch body is the newline-join of the
individually rendered lines and the empty batch yields the empty payload;
when every measurement's textual components are newline-free the payload
contains exactly `N - 1` newline characters, does not end with a newline,
and does not begin with one. -/
theorem bucketWriteBody_spec (ms : List Measurement) :
    bucketWriteBody ms = joinSep ['\n'] (ms.map Measurement.to_string) ∧
    bucketWriteBody [] = [] ∧
    ((∀ m ∈ ms, measurementNlFree m = true) →
      ((bucketWriteBody ms).count '\n' = ms.length - 1 ∧
       (bucketWriteBody ms).getLast? ≠ some '\n' ∧
       (bucketWriteBody ms).head? ≠ some '\n')) := by
  refine ⟨rfl, rfl, fun h => ⟨?_, ?_, ?_⟩⟩
  · have hlines : ∀ l ∈ ms.map Measurement.to_string, '\n' ∉ l := by
      intro l hl
      obtain ⟨m, hm, rfl⟩ := List.mem_map.mp hl
      exact measurement_line_no_newline (h m hm)
    have := count_joinSep_newline (ms.map Measurement.to_string) hlines
    simpa [bucketWriteBody] using this
  · obtain hnil | ⟨L, b, hLb⟩ := List.eq_nil_or_concat (ms.map Measurement.to_string)
    · unfold bucketWriteBody
      rw [hnil]
      simp [joinSep]
    · rw [List.concat_eq_append] at hLb
      have hb : ∃ mm : Measurement, b = mm.to_string := by
        have hmem : b ∈ ms.map Measurement.to_string := by
          rw [hLb]
          simp
        obtain ⟨mm, _, hmm⟩ := List.mem_map.mp hmem
        exact ⟨mm, hmm.symm⟩
      obtain ⟨mm, rfl⟩ := hb
      obtain ⟨w, k, hk, hw⟩ := to_string_ends_digit mm
      unfold bucketWriteBody
      rw [hLb]
      by_cases hL : L = []
      · subst hL
        rw [List.nil_append]
        show (joinSep ['\n'] [mm.to_string]).getLast? ≠ some '\n'
        rw [show joinSep ['\n'] [mm.to_string] = mm.to_string from rfl, hw,
          getLast?_append_singleton]
        simp only [ne_eq, Option.some.injEq]
        exact digitChar_ne_newline k
      · rw [joinSep_append_single _ _ _ hL, hw]
        have hassoc : joinSep ['\n'] L ++ (['\n'] ++ (w ++ [digitChar k])) =
            (joinSep ['\n'] L ++ '\n' :: w) ++ [digitChar k] := by
          simp [List.append_assoc]
        rw [hassoc, getLast?_append_singleton]
        simp only [ne_eq, Option.some.injEq]
        exact digitChar_ne_newline k
  · intro hEq
    unfold bucketWriteBody at hEq
    have hne : ∀ l ∈ ms.map Measurement.to_string, l ≠ [] := by
      intro l hl
      obtain ⟨mm, _, rfl⟩ := List.mem_map.mp hl
      exact to_string_ne_nil mm
    obtain ⟨l, hl, hc⟩ := head?_joinSep hne hEq
    obtain ⟨mm, hmm, rfl⟩ := List.mem_map.mp hl
    exact measurement_line_no_newline (h mm hmm) hc

/-- Witness for claim C5: a two-element batch of newline-free measurements
has exactly one newline and neither starts nor ends with one. -/
theorem bucketWriteBody_spec_witness :
    (bucketWriteBody [witMeasurement, witMeasurement]).count '\n' =
      [witMeasurement, witMeasurement].length - 1 ∧
    (bucketWriteBody [witMeasurement, witMeasurement]).getLast? ≠ some '\n' ∧
    (bucketWriteBody [witMeasurement, witMeasurement]).head? ≠ some '\n' :=
  (bucketWriteBody_spec [witMeasurement, witMeasurement]).2.2 (by decide)

/-! ### Cross-validation against the repository's unit tests -/

example :
    (Measurement.mk "my Measurement".data
      [("fieldKey".data, .string "string value".data)] [] 0).to_string
      = "my\\ Measurement fieldKey=\"string value\" 0".data := by
  decide

example :
    (Measurement.mk "myMeasurement".data
      [("fieldKey".data, .string "\"string\" within a string".data)] [] 0).to_string
      = "myMeasurement fieldKey=\"\\\"string\\\" within a string\" 0".data := by
  decide

example :
    (Measurement.mk "myMeasurement".data
      [("fieldKey".data, .uinteger 100)]
      [("tag Key1".data, "tag Value1".data), ("tag Key2".data, "tag Value2".data)]
      0).to_string
      = "myMeasurement,tag\\ Key1=tag\\ Value1,tag\\ Key2=tag\\ Value2 fieldKey=100u 0".data := by
  decide

example :
    (Measurement.mk "myMeasurement".data
      [("fieldKey".data, .string "Launch 🚀".data)]
      [("tagKey".data, "🍭".data)] 0).to_string
      = "myMeasurement,tagKey=🍭 fieldKey=\"Launch 🚀\" 0".data := by
  decide

end Outflux
